import Mathlib

/-!
# Verification of the candyworks state-space explorer

Shallow embedding of `src/main.rs`: the `Candies` basket type, `Trade` rules,
and the `CandyWorks` explorer with its bounded depth-bounded traversal,
statistics, chain-length and route-reconstruction queries.

Machine integers (`i32`) are modelled as `Int`; `u32` (the cap) as `Nat`,
compared after coercion to `Int` exactly as the Rust code casts
`self.max_candies as i32`.  The `HashSet` of seen baskets is modelled as a
`List Candies` used only through membership, and the `VecDeque` frontier as a
`List Nat` whose head is the back of the deque (`pop_back` pops the head,
`extend` prepends the reversed new indices), which reproduces the Rust
push/pop order exactly.  The traversal loop runs on explicit fuel; all
invariant theorems hold for every fuel, hence for the terminating run.
-/

/-- The five-field inventory record (`struct Candies`). -/
structure Candies where
  eggs : Int
  worms : Int
  cakes : Int
  fishes : Int
  meats : Int
deriving DecidableEq, Repr

/-- A trade rule: a `give` basket and a `receive` basket (`struct Trade`). -/
structure Trade where
  give : Candies
  receive : Candies
deriving DecidableEq, Repr

/-- Embedding of `Candies::trade`: per-field `self + receive - give`; `None` when any
resulting field is negative, otherwise the adjusted basket. -/
def Candies.trade (self : Candies) (t : Trade) : Option Candies :=
  let result : Candies :=
    { eggs := self.eggs + t.receive.eggs - t.give.eggs
      meats := self.meats + t.receive.meats - t.give.meats
      fishes := self.fishes + t.receive.fishes - t.give.fishes
      worms := self.worms + t.receive.worms - t.give.worms
      cakes := self.cakes + t.receive.cakes - t.give.cakes }
  if result.eggs < 0 ∨ result.meats < 0 ∨ result.fishes < 0 ∨
      result.worms < 0 ∨ result.cakes < 0 then
    none
  else
    some result

/-- Embedding of `Candies::total`: sum of the five fields. -/
def Candies.total (self : Candies) : Int :=
  self.eggs + self.worms + self.cakes + self.fishes + self.meats

/-- Embedding of `Candies::contains`: every field of `self` at least the matching field
of `other`. -/
def Candies.contains (self other : Candies) : Bool :=
  decide (self.eggs ≥ other.eggs) && decide (self.meats ≥ other.meats) &&
    decide (self.fishes ≥ other.fishes) && decide (self.worms ≥ other.worms) &&
    decide (self.cakes ≥ other.cakes)

/-- Embedding of `Candies::none`: the all-zero basket. -/
def Candies.none : Candies :=
  { eggs := 0, worms := 0, cakes := 0, fishes := 0, meats := 0 }

/-- Embedding of `Candies::add_by_index`: add `value` to the field selected by `index`
(0..4); out-of-range indices are a no-op. -/
def Candies.add_by_index (self : Candies) (index : Nat) (value : Int) : Candies :=
  match index with
  | 0 => { self with eggs := self.eggs + value }
  | 1 => { self with worms := self.worms + value }
  | 2 => { self with cakes := self.cakes + value }
  | 3 => { self with fishes := self.fishes + value }
  | 4 => { self with meats := self.meats + value }
  | _ => self

/-- Embedding of `Trade::standard_trade(a, b)`: give 3 of kind `a`, receive 1 of kind `b`. -/
def Trade.standard_trade (a b : Nat) : Trade :=
  { give := Candies.none.add_by_index a 3
    receive := Candies.none.add_by_index b 1 }

/-- One entry of the explored-state table: the basket together with its
discovery parent — `none` for the root, `some (parent_index, rule)` otherwise. -/
abbrev Entry := Candies × Option (Nat × Trade)

/-- The explorer state (`struct CandyWorks`). -/
structure CandyWorks where
  candies : Candies
  max_candies : Nat
  trades : List Trade
  combinations : List Entry
deriving Repr

/-- The 20 standard rules generated by the constructor loop
`for i in 0..5 { for j in 0..5 { if i != j { push(standard_trade(i, j)) } } }`. -/
def standardTradeList : List Trade :=
  (List.range 5).flatMap fun i =>
    ((List.range 5).filter fun j => j != i).map fun j => Trade.standard_trade i j

/-- Embedding of `CandyWorks::new`: keeps the custom rules and appends the 20 standard
rules; the table starts empty. -/
def CandyWorks.new (candies : Candies) (max_candies : Nat)
    (custom_trades : List Trade) : CandyWorks :=
  { candies := candies
    max_candies := max_candies
    trades := custom_trades ++ standardTradeList
    combinations := [] }

/-- One rule attempt of the inner `for trade in &self.trades` loop of
`explore`: accumulate `(new_collections, known_sets)`; a successful trade
whose total is within the cap and whose basket is unseen is appended to the
new entries and inserted into the seen set. -/
def expandStep (cw : CandyWorks) (idx : Nat) (candies : Candies)
    (acc : List Entry × List Candies) (t : Trade) : List Entry × List Candies :=
  match candies.trade t with
  | Option.none => acc
  | Option.some nc =>
      if nc.total ≤ (cw.max_candies : Int) ∧ nc ∉ acc.2 then
        (acc.1 ++ [(nc, some (idx, t))], nc :: acc.2)
      else
        acc

/-- The whole inner `for trade in &self.trades` loop of `explore`: the
fresh `new_collections` and the updated seen set. -/
def expandAll (cw : CandyWorks) (idx : Nat) (candies : Candies)
    (known : List Candies) : List Entry × List Candies :=
  cw.trades.foldl (expandStep cw idx candies) ([], known)

/-- The `while let Some(index) = queue.pop_back()` loop of `explore`, on
fuel.  The queue list holds the deque back-to-front, so `pop_back` is the
head and `extend` prepends the reversed fresh indices. -/
def exploreLoop (cw : CandyWorks) :
    Nat → List Entry → List Candies → List Nat →
      List Entry × List Candies × List Nat
  | 0, cols, known, queue => (cols, known, queue)
  | _ + 1, cols, known, [] => (cols, known, [])
  | fuel + 1, cols, known, idx :: rest =>
      let acc := expandAll cw idx (cols.getD idx (Candies.none, Option.none)).1 known
      let newIdxs := List.range' cols.length acc.1.length
      exploreLoop cw fuel (cols ++ acc.1) acc.2 (newIdxs.reverse ++ rest)

/-- Embedding of `CandyWorks::explore` as a state transformer: table seeded with the root
entry, seen set with the start basket, frontier with index 0. -/
def CandyWorks.exploreState (cw : CandyWorks) (fuel : Nat) :
    List Entry × List Candies × List Nat :=
  exploreLoop cw fuel [(cw.candies, Option.none)] [cw.candies] [0]

/-- Embedding of `CandyWorks::explore`: replaces `self.combinations` with the traversal
result. -/
def CandyWorks.explore (cw : CandyWorks) (fuel : Nat) : CandyWorks :=
  { cw with combinations := (cw.exploreState fuel).1 }

/-- The `while let Some((_, parent)) = self.combinations.get(current)` loop
of `len_from_combination`, on fuel: a failed lookup adds nothing, a hit adds
one and follows a `some` parent. -/
def lenFromAux (cols : List Entry) : Nat → Nat → Nat
  | 0, _ => 0
  | fuel + 1, current =>
      match cols.get? current with
      | Option.none => 0
      | Option.some (_, Option.none) => 1
      | Option.some (_, Option.some (p, _)) => 1 + lenFromAux cols fuel p

/-- Embedding of `CandyWorks::len_from_combination`: in any table produced by `explore`
parent indices strictly decrease, so `length + 1` fuel always suffices. -/
def CandyWorks.len_from_combination (cw : CandyWorks) (index : Nat) : Nat :=
  lenFromAux cw.combinations (cw.combinations.length + 1) index

/-- The parent-pointer walk of `find_optimal_route`
(`while let Some((parent, trade)) = current`), on fuel: collects the rules
entry-to-root, i.e. before the final `reverse`. -/
def routeWalk (cols : List Entry) : Nat → Option (Nat × Trade) → List Trade
  | 0, _ => []
  | _ + 1, Option.none => []
  | fuel + 1, Option.some (p, t) =>
      t :: routeWalk cols fuel (cols.getD p (Candies.none, Option.none)).2

/-- The candidate selection of `find_optimal_route`: filter the table for
entries containing the target, take the maximal total, retain, pick
`candidates[0]`. -/
def chooseEntry (cols : List Entry) (target : Candies) : Option Entry :=
  let candidates := cols.filter fun e => e.1.contains target
  match (candidates.map fun e => e.1.total).max? with
  | Option.none => Option.none
  | Option.some m => (candidates.filter fun e => e.1.total == m).head?

/-- Embedding of `CandyWorks::find_optimal_route`: empty route when the start already
contains the target; otherwise reconstruct from the chosen entry, or `none`
when no entry qualifies. -/
def CandyWorks.find_optimal_route (cw : CandyWorks) (target : Candies) :
    Option (List Trade) :=
  if cw.candies.contains target then
    some []
  else
    match chooseEntry cw.combinations target with
    | Option.none => Option.none
    | Option.some e =>
        some ((routeWalk cw.combinations cw.combinations.length e.2).reverse)

/-- Outcome of `CandyWorks::stadistics` when it does not panic. -/
inductive StatsResult where
  | noCombinations : StatsResult
  | stats (count : Nat) (minTotal maxTotal : Int) (maxTrades : Nat) : StatsResult
deriving DecidableEq, Repr

/-- Embedding of `CandyWorks::stadistics`: the empty-table branch reports
`noCombinations`; otherwise min/max of the totals and the maximum
`len_from_combination` over the parents of non-root entries.  Each Rust
`.max()/.min().unwrap()` on an empty iterator panics; a panic is modelled as
`Option.none`. -/
def CandyWorks.stadistics (cw : CandyWorks) : Option StatsResult :=
  if cw.combinations.isEmpty then
    some StatsResult.noCombinations
  else
    match (cw.combinations.map fun e => e.1.total).min?,
        (cw.combinations.map fun e => e.1.total).max?,
        ((cw.combinations.filterMap fun e => e.2).map fun pt =>
          cw.len_from_combination pt.1).max? with
    | Option.some mn, Option.some mx, Option.some mt =>
        some (StatsResult.stats cw.combinations.length mn mx mt)
    | _, _, _ => Option.none

/-- Replaying a rule sequence against a basket by repeated `trade`;
`none` as soon as one application is rejected. -/
def applyTrades (b : Candies) : List Trade → Option Candies
  | [] => some b
  | t :: ts =>
      match b.trade t with
      | Option.none => Option.none
      | Option.some b' => applyTrades b' ts

/-- Predicate `ReachesIn trades cap b n b'`: basket `b'` is obtainable from `b` by
exactly `n` valid trades from the rule list, every intermediate (and final)
result staying within the cap. -/
inductive ReachesIn (trades : List Trade) (cap : Int) : Candies → Nat → Candies → Prop where
  | refl (b : Candies) : ReachesIn trades cap b 0 b
  | step {b b' b'' : Candies} {n : Nat} {t : Trade} :
      t ∈ trades → b.trade t = some b' → b'.total ≤ cap →
      ReachesIn trades cap b' n b'' → ReachesIn trades cap b (n + 1) b''

/-! ## Generic list lemmas -/

/-- Folding preserves any invariant preserved by each step. -/
theorem foldl_preserves {α β : Type} {Q : β → Prop} {f : β → α → β} :
    ∀ (l : List α) (b : β), Q b → (∀ b' a, a ∈ l → Q b' → Q (f b' a)) →
      Q (l.foldl f b)
  | [], b, hb, _ => hb
  | a :: l, b, hb, hstep =>
      foldl_preserves l (f b a) (hstep b a (List.mem_cons_self a l) hb)
        fun b' a' ha' => hstep b' a' (List.mem_cons_of_mem a ha')

/-- The head of a filtered list is the first element satisfying the predicate. -/
theorem head?_filter_eq_find? {α : Type} (p : α → Bool) :
    ∀ l : List α, (l.filter p).head? = l.find? p
  | [] => rfl
  | a :: l => by
      by_cases h : p a
      · simp [List.filter_cons, h, List.find?_cons, head?_filter_eq_find? p l]
      · simp only [Bool.not_eq_true] at h
        simp [List.filter_cons, h, List.find?_cons, head?_filter_eq_find? p l]

/-- Searching a filtered list is searching with the conjoined predicate. -/
theorem find?_filter {α : Type} (p q : α → Bool) :
    ∀ l : List α, (l.filter p).find? q = l.find? fun a => p a && q a
  | [] => rfl
  | a :: l => by
      by_cases hp : p a
      · by_cases hq : q a
        · simp [List.filter_cons, hp, List.find?_cons, hq]
        · simp only [Bool.not_eq_true] at hq
          simp [List.filter_cons, hp, List.find?_cons, hq, find?_filter p q l]
      · simp only [Bool.not_eq_true] at hp
        simp [List.filter_cons, hp, List.find?_cons, find?_filter p q l]

/-- A successful `find?` returns the element at some position all of whose
predecessors fail the predicate. -/
theorem find?_eq_some_index {α : Type} (p : α → Bool) :
    ∀ (l : List α) (x : α), l.find? p = some x →
      p x = true ∧ ∃ i, l.get? i = some x ∧
        ∀ j y, j < i → l.get? j = some y → p y = false
  | [], x, h => by simp at h
  | a :: l, x, h => by
      by_cases hp : p a
      · rw [List.find?_cons_of_pos _ hp] at h
        obtain rfl : a = x := Option.some.inj h
        exact ⟨hp, 0, rfl, fun j y hj => absurd hj (Nat.not_lt_zero j)⟩
      · simp only [Bool.not_eq_true] at hp
        rw [List.find?_cons_of_neg _ (by simp [hp])] at h
        obtain ⟨hx, i, hi, hbefore⟩ := find?_eq_some_index p l x h
        refine ⟨hx, i + 1, hi, fun j y hj hy => ?_⟩
        match j with
        | 0 => exact (Option.some.inj hy) ▸ hp
        | j + 1 => exact hbefore j y (Nat.lt_of_succ_lt_succ hj) hy

/-! ## Basket helper lemmas -/

/-- Two distinct baskets differ in at least one of the five fields. -/
theorem Candies.ne_iff_field_ne (a b : Candies) (h : a ≠ b) :
    a.eggs ≠ b.eggs ∨ a.worms ≠ b.worms ∨ a.cakes ≠ b.cakes ∨
      a.fishes ≠ b.fishes ∨ a.meats ≠ b.meats := by
  by_contra hall
  push_neg at hall
  obtain ⟨h1, h2, h3, h4, h5⟩ := hall
  exact h (by cases a; cases b; simp_all)

/-! ## The traversal invariant -/

/-- Structural soundness of the explored table: index 0 is the root, and
every other entry carries a parent strictly earlier in the table, a rule
from the rule list that transforms the parent basket into the stored basket,
and a total within the cap. -/
def TableInv (cw : CandyWorks) (cols : List Entry) : Prop :=
  cols.get? 0 = some (cw.candies, Option.none) ∧
  ∀ i e, cols.get? i = some e → i ≠ 0 →
    ∃ p t ep, e.2 = some (p, t) ∧ p < i ∧ t ∈ cw.trades ∧
      cols.get? p = some ep ∧ ep.1.trade t = some e.1 ∧
      e.1.total ≤ (cw.max_candies : Int)

/-- Full loop invariant: sound table, pairwise-distinct baskets, the seen
set holding exactly the table's baskets, and in-range frontier indices. -/
def LoopInv (cw : CandyWorks) (cols : List Entry) (known : List Candies)
    (queue : List Nat) : Prop :=
  TableInv cw cols ∧
  (cols.map Prod.fst).Nodup ∧
  (∀ b, b ∈ known ↔ b ∈ cols.map Prod.fst) ∧
  (∀ i ∈ queue, i < cols.length)

/-- Invariant of the inner rule fold: all accumulated entries come from a
rule applied to the expanded basket, stay within the cap, are mutually
distinct, new w.r.t. the incoming seen set, and the seen set accumulates
exactly them. -/
def ExpandInv (cw : CandyWorks) (idx : Nat) (candies : Candies)
    (known0 : List Candies) (acc : List Entry × List Candies) : Prop :=
  (∀ e ∈ acc.1, ∃ t, t ∈ cw.trades ∧ e.2 = some (idx, t) ∧
      candies.trade t = some e.1 ∧ e.1.total ≤ (cw.max_candies : Int)) ∧
  (∀ b, b ∈ acc.2 ↔ b ∈ known0 ∨ b ∈ acc.1.map Prod.fst) ∧
  (acc.1.map Prod.fst).Nodup ∧
  (∀ b ∈ acc.1.map Prod.fst, b ∉ known0)

/-- Equation lemma: a rejected trade leaves the accumulator unchanged. -/
theorem expandStep_none {cw : CandyWorks} {idx : Nat} {candies : Candies}
    {acc : List Entry × List Candies} {t : Trade}
    (h : candies.trade t = Option.none) :
    expandStep cw idx candies acc t = acc := by
  unfold expandStep; rw [h]

/-- Equation lemma: a fresh in-cap result is appended and marked seen. -/
theorem expandStep_some_pos {cw : CandyWorks} {idx : Nat} {candies : Candies}
    {acc : List Entry × List Candies} {t : Trade} {nc : Candies}
    (h : candies.trade t = Option.some nc)
    (hc : nc.total ≤ (cw.max_candies : Int) ∧ nc ∉ acc.2) :
    expandStep cw idx candies acc t =
      (acc.1 ++ [(nc, some (idx, t))], nc :: acc.2) := by
  unfold expandStep; rw [h]; exact if_pos hc

/-- Equation lemma: an over-cap or already-seen result is discarded. -/
theorem expandStep_some_neg {cw : CandyWorks} {idx : Nat} {candies : Candies}
    {acc : List Entry × List Candies} {t : Trade} {nc : Candies}
    (h : candies.trade t = Option.some nc)
    (hc : ¬(nc.total ≤ (cw.max_candies : Int) ∧ nc ∉ acc.2)) :
    expandStep cw idx candies acc t = acc := by
  unfold expandStep; rw [h]; exact if_neg hc

theorem expandStep_preserves (cw : CandyWorks) (idx : Nat) (candies : Candies)
    (known0 : List Candies) (acc : List Entry × List Candies) (t : Trade)
    (ht : t ∈ cw.trades) (h : ExpandInv cw idx candies known0 acc) :
    ExpandInv cw idx candies known0 (expandStep cw idx candies acc t) := by
  obtain ⟨hent, hknown, hnodup, hnew⟩ := h
  cases htr : candies.trade t with
  | none => rw [expandStep_none htr]; exact ⟨hent, hknown, hnodup, hnew⟩
  | some nc =>
      by_cases hcond : nc.total ≤ (cw.max_candies : Int) ∧ nc ∉ acc.2
      · rw [expandStep_some_pos htr hcond]
        have hncnotmap : nc ∉ acc.1.map Prod.fst := fun hmem =>
          hcond.2 ((hknown nc).mpr (Or.inr hmem))
        have hncnotknown0 : nc ∉ known0 := fun hmem =>
          hcond.2 ((hknown nc).mpr (Or.inl hmem))
        refine ⟨?_, ?_, ?_, ?_⟩
        · intro e he
          rcases List.mem_append.mp he with he | he
          · exact hent e he
          · obtain rfl : (nc, some (idx, t)) = e := (List.mem_singleton.mp he).symm
            exact ⟨t, ht, rfl, htr, hcond.1⟩
        · intro b
          simp only [List.mem_cons, List.map_append, List.map_cons, List.map_nil,
            List.mem_append, List.mem_singleton, hknown b]
          tauto
        · rw [List.map_append]
          refine List.Nodup.append hnodup ?_ (List.disjoint_left.mpr ?_)
          · simp
          · intro b hb hb'
            simp only [List.map_cons, List.map_nil, List.mem_singleton] at hb'
            exact hncnotmap (hb' ▸ hb)
        · intro b hb
          rw [List.map_append, List.mem_append] at hb
          rcases hb with hb | hb
          · exact hnew b hb
          · exact (List.mem_singleton.mp hb) ▸ hncnotknown0
      · rw [expandStep_some_neg htr hcond]
        exact ⟨hent, hknown, hnodup, hnew⟩

/-- Expanding one popped frontier index preserves the loop invariant. -/
theorem loopStep_inv (cw : CandyWorks) {cols : List Entry} {known : List Candies}
    {idx : Nat} {rest : List Nat} (h : LoopInv cw cols known (idx :: rest)) :
    LoopInv cw
      (cols ++ (expandAll cw idx (cols.getD idx (Candies.none, Option.none)).1 known).1)
      (expandAll cw idx (cols.getD idx (Candies.none, Option.none)).1 known).2
      ((List.range' cols.length
        (expandAll cw idx (cols.getD idx (Candies.none, Option.none)).1 known).1.length).reverse
        ++ rest) := by
  obtain ⟨hT, hnodup, hknown, hqueue⟩ := h
  have hidx : idx < cols.length := hqueue idx (List.mem_cons_self idx rest)
  have hgetq : cols.get? idx = some (cols.get ⟨idx, hidx⟩) := List.get?_eq_get hidx
  have hcand : cols.getD idx (Candies.none, Option.none) = cols.get ⟨idx, hidx⟩ := by
    rw [List.getD_eq_get?, hgetq]; rfl
  set ep : Entry := cols.get ⟨idx, hidx⟩ with hep
  rw [hcand]
  have hbase : ExpandInv cw idx ep.1 known ([], known) := by
    refine ⟨by simp, fun b => by simp, List.nodup_nil, by simp⟩
  have hexp : ExpandInv cw idx ep.1 known (expandAll cw idx ep.1 known) :=
    foldl_preserves cw.trades ([], known) hbase
      (fun b a ha hb => expandStep_preserves cw idx ep.1 known b a ha hb)
  obtain ⟨hent, hkn, hnsnodup, hnsnew⟩ := hexp
  set ns : List Entry := (expandAll cw idx ep.1 known).1
  set kn : List Candies := (expandAll cw idx ep.1 known).2
  have hcolsnonempty : 0 < cols.length := by
    rcases List.get?_eq_some.mp hT.1 with ⟨hlt, _⟩
    exact hlt
  refine ⟨⟨?_, ?_⟩, ?_, ?_, ?_⟩
  · rw [List.get?_append hcolsnonempty]
    exact hT.1
  · intro i e hi hne
    by_cases hilt : i < cols.length
    · rw [List.get?_append hilt] at hi
      obtain ⟨p, t, ep', h2, hplt, ht, hp, htr, htot⟩ := hT.2 i e hi hne
      exact ⟨p, t, ep', h2, hplt, ht,
        by rw [List.get?_append (Nat.lt_trans hplt hilt)]; exact hp, htr, htot⟩
    · push_neg at hilt
      rw [List.get?_append_right hilt] at hi
      have hmem : e ∈ ns := List.mem_iff_get?.mpr ⟨i - cols.length, hi⟩
      obtain ⟨t, ht, h2, htr, htot⟩ := hent e hmem
      exact ⟨idx, t, ep, h2, Nat.lt_of_lt_of_le hidx hilt, ht,
        by rw [List.get?_append hidx]; exact hgetq, htr, htot⟩
  · rw [List.map_append]
    refine List.Nodup.append hnodup hnsnodup (List.disjoint_left.mpr ?_)
    intro b hb hb'
    exact hnsnew b hb' ((hknown b).mpr hb)
  · intro b
    rw [List.map_append, List.mem_append, hkn b, hknown b]
  · intro i hi
    rw [List.length_append]
    rcases List.mem_append.mp hi with hi | hi
    · rw [List.mem_reverse] at hi
      exact (List.mem_range'_1.mp hi).2
    · exact Nat.lt_of_lt_of_le (hqueue i (List.mem_cons_of_mem idx hi))
        (Nat.le_add_right _ _)

/-- The loop invariant is preserved by any number of loop iterations. -/
theorem exploreLoop_preserves (cw : CandyWorks) :
    ∀ (fuel : Nat) (cols : List Entry) (known : List Candies) (queue : List Nat),
      LoopInv cw cols known queue →
      LoopInv cw (exploreLoop cw fuel cols known queue).1
        (exploreLoop cw fuel cols known queue).2.1
        (exploreLoop cw fuel cols known queue).2.2 := by
  intro fuel
  induction fuel with
  | zero => intro cols known queue h; exact h
  | succ fuel ih =>
      intro cols known queue h
      cases queue with
      | nil => simpa only [exploreLoop] using h
      | cons idx rest =>
          simp only [exploreLoop]
          exact ih _ _ _ (loopStep_inv cw h)

/-- The invariant holds of the state `explore` starts from, hence of every
traversal result. -/
theorem exploreState_inv (cw : CandyWorks) (fuel : Nat) :
    LoopInv cw (cw.exploreState fuel).1 (cw.exploreState fuel).2.1
      (cw.exploreState fuel).2.2 := by
  refine exploreLoop_preserves cw fuel _ _ _ ⟨⟨rfl, ?_⟩, ?_, ?_, ?_⟩
  · intro i e hi hne
    match i, hne with
    | j + 1, _ => simp [List.get?] at hi
  · simp
  · intro b; simp
  · intro i hi
    simp only [List.mem_singleton] at hi
    simp [hi]

/-- Structural soundness of the table `explore` installs. -/
theorem explore_tableInv (cw : CandyWorks) (fuel : Nat) :
    TableInv cw (cw.explore fuel).combinations :=
  (exploreState_inv cw fuel).1

/-! ## Path replay -/

/-- Replaying a concatenation: the second leg starts from the first leg's
result. -/
theorem applyTrades_append (b : Candies) :
    ∀ l1 l2 : List Trade,
      applyTrades b (l1 ++ l2) =
        (applyTrades b l1).bind fun b' => applyTrades b' l2 := by
  intro l1
  induction l1 generalizing b with
  | nil => intro l2; rfl
  | cons t l1 ih =>
      intro l2
      simp only [List.cons_append, applyTrades]
      cases b.trade t with
      | none => rfl
      | some b' => exact ih b' l2

/-- A reachability derivation can be extended by one more trade at the end. -/
theorem ReachesIn.snoc {trades : List Trade} {cap : Int} {b b' : Candies}
    {n : Nat} (h : ReachesIn trades cap b n b') :
    ∀ {b'' : Candies} {t : Trade}, t ∈ trades → b'.trade t = some b'' →
      b''.total ≤ cap → ReachesIn trades cap b (n + 1) b'' := by
  induction h with
  | refl b =>
      intro b'' t ht htr hcap
      exact ReachesIn.step ht htr hcap (ReachesIn.refl b'')
  | step ht' htr' hcap' _ ih =>
      intro b'' t ht htr hcap
      exact ReachesIn.step ht' htr' hcap' (ih ht htr hcap)

/-- Core replay lemma: in a structurally sound table, walking any entry's
parent chain and replaying the collected rules root-to-entry against the
starting basket reproduces the stored basket, and witnesses reachability in
exactly the chain's number of trades, all within the cap. -/
theorem replay_walk (cw : CandyWorks) (cols : List Entry) (hT : TableInv cw cols) :
    ∀ (fuel i : Nat) (e : Entry), i < fuel → cols.get? i = some e →
      applyTrades cw.candies ((routeWalk cols fuel e.2).reverse) = some e.1 ∧
      ReachesIn cw.trades (cw.max_candies : Int) cw.candies
        (routeWalk cols fuel e.2).length e.1 := by
  intro fuel
  induction fuel with
  | zero => intro i e hi; exact absurd hi (Nat.not_lt_zero i)
  | succ fuel ih =>
      intro i e hi hget
      cases hpar : e.2 with
      | none =>
          have hi0 : i = 0 := by
            by_contra hne
            obtain ⟨p, t, ep, h2, _⟩ := hT.2 i e hget hne
            rw [hpar] at h2
            exact Option.noConfusion h2
          subst hi0
          have : (cw.candies, Option.none) = e := Option.some.inj (hT.1.symm.trans hget)
          obtain rfl := this
          simp only [routeWalk, List.reverse_nil, List.length_nil]
          exact ⟨rfl, ReachesIn.refl cw.candies⟩
      | some pt =>
          have hne : i ≠ 0 := by
            intro hi0
            subst hi0
            have : (cw.candies, Option.none) = e := Option.some.inj (hT.1.symm.trans hget)
            obtain rfl := this
            exact Option.noConfusion hpar
          obtain ⟨p, t, ep, h2, hplt, ht, hp, htr, htot⟩ := hT.2 i e hget hne
          have hgetD : cols.getD p (Candies.none, Option.none) = ep := by
            rw [List.getD_eq_get?, hp]; rfl
          have hwalk : routeWalk cols (fuel + 1) e.2 =
              t :: routeWalk cols fuel ep.2 := by
            rw [h2]
            simp only [routeWalk, hgetD]
          have hplt' : p < fuel := Nat.lt_of_lt_of_le hplt (Nat.lt_succ_iff.mp hi)
          obtain ⟨ihapply, ihreach⟩ := ih p ep hplt' hp
          rw [← hpar]
          constructor
          · rw [hwalk, List.reverse_cons, applyTrades_append, ihapply]
            simp [applyTrades, htr]
          · rw [hwalk, List.length_cons]
            exact ihreach.snoc ht htr htot

/-! ## Route selection -/

/-- With the maximal qualifying total known, the chosen entry is the first
table entry that contains the target and attains that total. -/
theorem chooseEntry_eq_find? (cols : List Entry) (target : Candies) (m : Int)
    (hmax : ((cols.filter fun e => e.1.contains target).map fun e => e.1.total).max?
      = some m) :
    chooseEntry cols target =
      cols.find? fun e => e.1.contains target && (e.1.total == m) := by
  simp only [chooseEntry]
  rw [hmax]
  dsimp only
  rw [head?_filter_eq_find?, find?_filter]

/-- The chosen entry is a table entry. -/
theorem chooseEntry_mem {cols : List Entry} {target : Candies} {e : Entry}
    (h : chooseEntry cols target = some e) : e ∈ cols := by
  simp only [chooseEntry] at h
  cases hmax : ((cols.filter fun e => e.1.contains target).map
      fun e => e.1.total).max? with
  | none => rw [hmax] at h; exact Option.noConfusion h
  | some m =>
      rw [hmax] at h
      dsimp only at h
      rw [head?_filter_eq_find?, find?_filter] at h
      exact List.mem_of_find?_eq_some h

/-- When the start does not contain the target, the route is reconstructed
from the chosen entry (or absent when no entry qualifies). -/
theorem find_optimal_route_of_not_contains {cw : CandyWorks} {target : Candies}
    (h : cw.candies.contains target = false) :
    cw.find_optimal_route target =
      match chooseEntry cw.combinations target with
      | Option.none => Option.none
      | Option.some e =>
          some ((routeWalk cw.combinations cw.combinations.length e.2).reverse) := by
  unfold CandyWorks.find_optimal_route
  rw [if_neg (by rw [h]; exact Bool.false_ne_true)]

/-- C3: when the starting basket does not contain the target and at least
one table entry's basket contains it, `find_optimal_route` reconstructs its
route from the entry that, among all entries whose basket contains the
target, has maximum `total()`, and among those ties is the earliest in
table order. -/
theorem find_optimal_route_selects_first_max_total (cw : CandyWorks)
    (target : Candies) (h1 : cw.candies.contains target = false)
    (h2 : ∃ e0 ∈ cw.combinations, e0.1.contains target = true) :
    ∃ i e, cw.combinations.get? i = some e ∧ e.1.contains target = true ∧
      (∀ e' ∈ cw.combinations, e'.1.contains target = true →
        e'.1.total ≤ e.1.total) ∧
      (∀ j e', j < i → cw.combinations.get? j = some e' →
        e'.1.contains target = true → e'.1.total < e.1.total) ∧
      cw.find_optimal_route target =
        some ((routeWalk cw.combinations cw.combinations.length e.2).reverse) := by
  obtain ⟨e0, he0mem, he0c⟩ := h2
  have he0cand : e0 ∈ cw.combinations.filter fun e => e.1.contains target :=
    List.mem_filter.mpr ⟨he0mem, he0c⟩
  obtain ⟨m, hmax⟩ : ∃ m,
      ((cw.combinations.filter fun e => e.1.contains target).map
        fun e => e.1.total).max? = some m := by
    cases hϟ : ((cw.combinations.filter fun e => e.1.contains target).map
        fun e => e.1.total).max? with
    | none =>
        rw [List.max?_eq_none_iff, List.map_eq_nil] at hϟ
        rw [hϟ] at he0cand
        exact absurd he0cand (List.not_mem_nil e0)
    | some m => exact ⟨m, rfl⟩
  have hub : ∀ b ∈ (cw.combinations.filter fun e => e.1.contains target).map
      (fun e => e.1.total), b ≤ m :=
    (List.max?_le_iff (fun _ _ _ => max_le_iff) hmax).mp (le_refl m)
  have hmem : m ∈ (cw.combinations.filter fun e => e.1.contains target).map
      fun e => e.1.total :=
    List.max?_mem max_choice hmax
  obtain ⟨e1, he1cand, he1tot⟩ := List.mem_map.mp hmem
  have hfind : ∃ x, (cw.combinations.find? fun e =>
      e.1.contains target && (e.1.total == m)) = some x := by
    cases hϟ : cw.combinations.find? fun e =>
        e.1.contains target && (e.1.total == m) with
    | none =>
        exfalso
        have := List.find?_eq_none.mp hϟ e1 (List.mem_filter.mp he1cand).1
        rw [(List.mem_filter.mp he1cand).2, he1tot] at this
        simp at this
    | some x => exact ⟨x, rfl⟩
  obtain ⟨x, hx⟩ := hfind
  obtain ⟨hxpred, i, hxi, hbefore⟩ := find?_eq_some_index _ cw.combinations x hx
  obtain ⟨hxc, hxm'⟩ : x.1.contains target = true ∧ (x.1.total == m) = true := by
    simpa using hxpred
  have hxm : x.1.total = m := beq_iff_eq.mp hxm'
  refine ⟨i, x, hxi, hxc, ?_, ?_, ?_⟩
  · intro e' he'mem he'c
    have : e'.1.total ∈ (cw.combinations.filter fun e => e.1.contains target).map
        fun e => e.1.total :=
      List.mem_map.mpr ⟨e', List.mem_filter.mpr ⟨he'mem, he'c⟩, rfl⟩
    rw [hxm]
    exact hub _ this
  · intro j e' hj hje hjc
    have hfail := hbefore j e' hj hje
    have hne : e'.1.total ≠ m := by
      intro hEq
      rw [hjc, hEq] at hfail
      simp at hfail
    have hle : e'.1.total ≤ m := hub _
      (List.mem_map.mpr ⟨e', List.mem_filter.mpr
        ⟨List.mem_iff_get?.mpr ⟨j, hje⟩, hjc⟩, rfl⟩)
    rw [hxm]
    exact lt_of_le_of_ne hle hne
  · rw [find_optimal_route_of_not_contains h1,
      chooseEntry_eq_find? cw.combinations target m hmax, hx]

/-- C2: after `explore()`, replaying any entry's parent chain of rules in
root-to-entry order against the starting basket via repeated `trade()`
reproduces the stored basket exactly; and any rule sequence returned by
`find_optimal_route` replays from the starting basket to the chosen entry's
basket (or, for the empty route, to the starting basket itself). -/
theorem explore_replay_consistent (cw : CandyWorks) (fuel : Nat) :
    (∀ i e, (cw.explore fuel).combinations.get? i = some e →
      applyTrades cw.candies
        ((routeWalk (cw.explore fuel).combinations
          (cw.explore fuel).combinations.length e.2).reverse) = some e.1) ∧
    (∀ target r, (cw.explore fuel).find_optimal_route target = some r →
      ∃ b, applyTrades cw.candies r = some b ∧
        ((cw.candies.contains target = true ∧ b = cw.candies) ∨
          ∃ e, chooseEntry (cw.explore fuel).combinations target = some e ∧
            b = e.1)) := by
  have hT := explore_tableInv cw fuel
  have hreplay : ∀ i e, (cw.explore fuel).combinations.get? i = some e →
      applyTrades cw.candies
        ((routeWalk (cw.explore fuel).combinations
          (cw.explore fuel).combinations.length e.2).reverse) = some e.1 := by
    intro i e hget
    have hi : i < (cw.explore fuel).combinations.length :=
      (List.get?_eq_some.mp hget).1
    exact (replay_walk cw (cw.explore fuel).combinations hT
      (cw.explore fuel).combinations.length i e hi hget).1
  refine ⟨hreplay, ?_⟩
  intro target r hroute
  by_cases hc : cw.candies.contains target = true
  · have : (cw.explore fuel).find_optimal_route target = some [] := by
      unfold CandyWorks.find_optimal_route
      rw [show (cw.explore fuel).candies = cw.candies from rfl, if_pos hc]
    rw [this] at hroute
    obtain rfl : ([] : List Trade) = r := Option.some.inj hroute
    exact ⟨cw.candies, rfl, Or.inl ⟨hc, rfl⟩⟩
  · have hcf : (cw.explore fuel).candies.contains target = false :=
      Bool.eq_false_iff.mpr hc
    rw [find_optimal_route_of_not_contains hcf] at hroute
    cases hch : chooseEntry (cw.explore fuel).combinations target with
    | none => rw [hch] at hroute; exact Option.noConfusion hroute
    | some e =>
        rw [hch] at hroute
        obtain rfl :
            ((routeWalk (cw.explore fuel).combinations
              (cw.explore fuel).combinations.length e.2).reverse) = r :=
          Option.some.inj hroute
        have hmem : e ∈ (cw.explore fuel).combinations := chooseEntry_mem hch
        obtain ⟨i, hget⟩ := List.mem_iff_get?.mp hmem
        exact ⟨e.1, hreplay i e hget, Or.inr ⟨e, rfl, rfl⟩⟩

/-- C1 (amended): after `explore()`, every entry's parent chain replays as a
valid trade sequence within the cap, so the chain's length is an attainable
trade count for that basket — an upper bound on the minimum trade-count
distance.  Equality with the minimum is not guaranteed: the frontier deque
is pushed at the back and popped at the back (LIFO, depth-first), not FIFO. -/
theorem explore_chain_reaches_in_chain_length (cw : CandyWorks) (fuel : Nat) :
    ∀ i e, (cw.explore fuel).combinations.get? i = some e →
      ReachesIn cw.trades (cw.max_candies : Int) cw.candies
        (routeWalk (cw.explore fuel).combinations
          (cw.explore fuel).combinations.length e.2).length e.1 := by
  intro i e hget
  have hi : i < (cw.explore fuel).combinations.length :=
    (List.get?_eq_some.mp hget).1
  exact (replay_walk cw (cw.explore fuel).combinations (explore_tableInv cw fuel)
    (cw.explore fuel).combinations.length i e hi hget).2

/-- C7: after `explore()`, the stored baskets are pairwise distinct — any
two entries at different indices differ in at least one of the five fields. -/
theorem explore_baskets_pairwise_distinct (cw : CandyWorks) (fuel : Nat) :
    ∀ i j ei ej, (cw.explore fuel).combinations.get? i = some ei →
      (cw.explore fuel).combinations.get? j = some ej → i ≠ j →
      ei.1.eggs ≠ ej.1.eggs ∨ ei.1.worms ≠ ej.1.worms ∨
        ei.1.cakes ≠ ej.1.cakes ∨ ei.1.fishes ≠ ej.1.fishes ∨
        ei.1.meats ≠ ej.1.meats := by
  intro i j ei ej hi hj hne
  have hnodup : ((cw.explore fuel).combinations.map Prod.fst).Nodup :=
    (exploreState_inv cw fuel).2.1
  refine Candies.ne_iff_field_ne ei.1 ej.1 ?_
  intro hEq
  have hilt : i < ((cw.explore fuel).combinations.map Prod.fst).length := by
    rw [List.length_map]
    exact (List.get?_eq_some.mp hi).1
  apply hne
  apply List.get?_inj hilt hnodup
  rw [List.get?_map, List.get?_map, hi, hj]
  simp [hEq]

/-- C9: after `explore()`, the root entry is the starting basket at index 0
with no parent — recorded even when its total exceeds the cap — and every
non-root entry has a parent and a basket total within the cap. -/
theorem explore_root_uncapped_nonroot_capped (cw : CandyWorks) (fuel : Nat) :
    (cw.explore fuel).combinations.get? 0 = some (cw.candies, Option.none) ∧
    ∀ i e, (cw.explore fuel).combinations.get? i = some e → i ≠ 0 →
      (∃ p t, e.2 = some (p, t)) ∧ e.1.total ≤ (cw.max_candies : Int) := by
  have hT := explore_tableInv cw fuel
  refine ⟨hT.1, ?_⟩
  intro i e hget hne
  obtain ⟨p, t, ep, h2, _, _, _, _, htot⟩ := hT.2 i e hget hne
  exact ⟨⟨p, t, h2⟩, htot⟩

/-- C6: `B.trade(R)` is rejected exactly when some field of
`B - give + receive` is negative, and otherwise returns exactly that
per-field adjusted basket.  The embedding is a pure function of `B`, as the
Rust method is (`&self`, no mutation). -/
theorem trade_rejected_iff_negative_field (b : Candies) (t : Trade) :
    (b.trade t = Option.none ↔
      (b.eggs + t.receive.eggs - t.give.eggs < 0 ∨
       b.meats + t.receive.meats - t.give.meats < 0 ∨
       b.fishes + t.receive.fishes - t.give.fishes < 0 ∨
       b.worms + t.receive.worms - t.give.worms < 0 ∨
       b.cakes + t.receive.cakes - t.give.cakes < 0)) ∧
    (¬(b.eggs + t.receive.eggs - t.give.eggs < 0 ∨
       b.meats + t.receive.meats - t.give.meats < 0 ∨
       b.fishes + t.receive.fishes - t.give.fishes < 0 ∨
       b.worms + t.receive.worms - t.give.worms < 0 ∨
       b.cakes + t.receive.cakes - t.give.cakes < 0) →
      b.trade t = some
        { eggs := b.eggs + t.receive.eggs - t.give.eggs
          worms := b.worms + t.receive.worms - t.give.worms
          cakes := b.cakes + t.receive.cakes - t.give.cakes
          fishes := b.fishes + t.receive.fishes - t.give.fishes
          meats := b.meats + t.receive.meats - t.give.meats }) := by
  by_cases h : (b.eggs + t.receive.eggs - t.give.eggs < 0 ∨
      b.meats + t.receive.meats - t.give.meats < 0 ∨
      b.fishes + t.receive.fishes - t.give.fishes < 0 ∨
      b.worms + t.receive.worms - t.give.worms < 0 ∨
      b.cakes + t.receive.cakes - t.give.cakes < 0)
  · refine ⟨⟨fun _ => h, fun _ => ?_⟩, fun hn => absurd h hn⟩
    simp only [Candies.trade]
    rw [if_pos h]
  · refine ⟨⟨fun hnone => ?_, fun hd => absurd hd h⟩, fun _ => ?_⟩
    · simp only [Candies.trade] at hnone
      rw [if_neg h] at hnone
      exact Option.noConfusion hnone
    · simp only [Candies.trade]
      rw [if_neg h]

/-- C8: `find_optimal_route` returns the empty route whenever the starting
basket contains the target, and `none` (unreachable) whenever the start
does not contain it and no table entry does. -/
theorem find_optimal_route_empty_or_unreachable (cw : CandyWorks)
    (target : Candies) :
    (cw.candies.contains target = true →
      cw.find_optimal_route target = some []) ∧
    (cw.candies.contains target = false →
      (∀ e ∈ cw.combinations, e.1.contains target = false) →
      cw.find_optimal_route target = Option.none) := by
  constructor
  · intro h
    unfold CandyWorks.find_optimal_route
    rw [if_pos h]
  · intro h hall
    rw [find_optimal_route_of_not_contains h]
    have hfil : (cw.combinations.filter fun e => e.1.contains target) = [] :=
      List.filter_eq_nil.mpr fun e he => by rw [hall e he]; exact Bool.false_ne_true
    have hch : chooseEntry cw.combinations target = Option.none := by
      simp only [chooseEntry, hfil, List.map_nil, List.max?_nil]
    rw [hch]

/-- C4 (amended): the chain-length query counts visited table entries, not
parent edges: it returns 1 for the root entry (index 0, parent = root) and
2 for any entry whose parent is the root. -/
theorem len_from_combination_counts_entries (cw : CandyWorks) (b : Candies)
    (h0 : cw.combinations.get? 0 = some (b, Option.none)) :
    cw.len_from_combination 0 = 1 ∧
    ∀ i c t, cw.combinations.get? i = some (c, some (0, t)) →
      cw.len_from_combination i = 2 := by
  have hlen : 0 < cw.combinations.length := (List.get?_eq_some.mp h0).1
  obtain ⟨n, hn⟩ : ∃ n, cw.combinations.length = n + 1 :=
    ⟨cw.combinations.length - 1, (Nat.succ_pred_eq_of_pos hlen).symm⟩
  constructor
  · unfold CandyWorks.len_from_combination
    rw [hn]
    simp only [lenFromAux, h0]
  · intro i c t hi
    unfold CandyWorks.len_from_combination
    rw [hn]
    simp only [lenFromAux, hi, h0]

/-! ## Concrete scenarios -/

/-- Five unit custom rules (egg→worm, egg→cake, cake→fish, fish→meat,
worm→meat) from a single egg: the back-popped frontier then discovers the
meat basket along the three-trade egg→cake→fish→meat chain before the
two-trade egg→worm→meat chain is tried. -/
def chainScenario : CandyWorks :=
  CandyWorks.new ⟨1, 0, 0, 0, 0⟩ 5
    [⟨⟨1, 0, 0, 0, 0⟩, ⟨0, 1, 0, 0, 0⟩⟩, ⟨⟨1, 0, 0, 0, 0⟩, ⟨0, 0, 1, 0, 0⟩⟩,
     ⟨⟨0, 0, 1, 0, 0⟩, ⟨0, 0, 0, 1, 0⟩⟩, ⟨⟨0, 0, 0, 1, 0⟩, ⟨0, 0, 0, 0, 1⟩⟩,
     ⟨⟨0, 1, 0, 0, 0⟩, ⟨0, 0, 0, 0, 1⟩⟩]

/-- Start of 3 eggs, cap 5, standard rules only: the table gains the four
one-trade children of the root. -/
def threeEggs : CandyWorks := CandyWorks.new ⟨3, 0, 0, 0, 0⟩ 5 []

/-- Start of 2 eggs, cap 5, standard rules only: no rule ever applies, the
table stays root-only. -/
def twoEggs : CandyWorks := CandyWorks.new ⟨2, 0, 0, 0, 0⟩ 5 []

/-- Start of 6 eggs with cap 5: the root total exceeds the cap. -/
def sixEggs : CandyWorks := CandyWorks.new ⟨6, 0, 0, 0, 0⟩ 5 []

/-- C1 (counterexample): the claim that every entry's parent-chain length
equals its minimum trade-count distance fails.  In `chainScenario` the
completed traversal stores the meat basket at index 4 with a parent chain of
length 3 (egg→cake→fish→meat), yet that basket is reachable from the start
in 2 trades (egg→worm→meat) within the cap — so the recorded chain is not
minimal, because the frontier is popped LIFO (depth-first), not FIFO. -/
theorem explore_chain_length_not_minimal :
    ((chainScenario.exploreState 10).2.2 = [] ∧
     (chainScenario.explore 10).combinations.get? 4 =
       some (⟨0, 0, 0, 0, 1⟩,
         some (3, ⟨⟨0, 0, 0, 1, 0⟩, ⟨0, 0, 0, 0, 1⟩⟩)) ∧
     (routeWalk (chainScenario.explore 10).combinations
       (chainScenario.explore 10).combinations.length
       (some (3, ⟨⟨0, 0, 0, 1, 0⟩, ⟨0, 0, 0, 0, 1⟩⟩))).length = 3) ∧
    ReachesIn chainScenario.trades (chainScenario.max_candies : Int)
      chainScenario.candies 2 ⟨0, 0, 0, 0, 1⟩ := by
  refine ⟨⟨by decide, by decide, by decide⟩, ?_⟩
  refine @ReachesIn.step chainScenario.trades (chainScenario.max_candies : Int)
    ⟨1, 0, 0, 0, 0⟩ ⟨0, 1, 0, 0, 0⟩ ⟨0, 0, 0, 0, 1⟩ 1
    ⟨⟨1, 0, 0, 0, 0⟩, ⟨0, 1, 0, 0, 0⟩⟩ (by decide) (by decide) (by decide) ?_
  refine @ReachesIn.step chainScenario.trades (chainScenario.max_candies : Int)
    ⟨0, 1, 0, 0, 0⟩ ⟨0, 0, 0, 0, 1⟩ ⟨0, 0, 0, 0, 1⟩ 0
    ⟨⟨0, 1, 0, 0, 0⟩, ⟨0, 0, 0, 0, 1⟩⟩ (by decide) (by decide) (by decide) ?_
  exact ReachesIn.refl _

/-- C4 (counterexample): the claim that the chain-length query returns 0 for
the root entry fails: on the explored three-egg scenario the root entry sits
at index 0 with no parent, and `len_from_combination 0` evaluates to 1. -/
theorem len_from_combination_root_not_zero :
    (threeEggs.explore 10).combinations.get? 0 =
      some (⟨3, 0, 0, 0, 0⟩, Option.none) ∧
    (threeEggs.explore 10).len_from_combination 0 = 1 ∧
    ¬((threeEggs.explore 10).len_from_combination 0 = 0) := by
  refine ⟨by decide, by decide, by decide⟩

/-- C5 (code bug): the statistics query does not always succeed after
`explore()`.  With start = 2 eggs, cap 5 and no custom rules, no rule ever
applies: the traversal completes with a root-only table, and `stadistics`
reaches `.max().unwrap()` over the chain lengths of the zero non-root
entries — unwrapping `None`, i.e. a panic, modelled as `Option.none`. -/
theorem stadistics_panics_on_root_only_table :
    (twoEggs.exploreState 10).2.2 = [] ∧
    (twoEggs.explore 10).combinations =
      [(⟨2, 0, 0, 0, 0⟩, Option.none)] ∧
    (twoEggs.explore 10).stadistics = Option.none := by
  refine ⟨by decide, by decide, by decide⟩

/-- Observer reading the basket field that `add_by_index` writes for each
kind index 0..4 (eggs, worms, cakes, fishes, meats); 0 outside the range. -/
def Candies.kindCount (self : Candies) : Nat → Int
  | 0 => self.eggs
  | 1 => self.worms
  | 2 => self.cakes
  | 3 => self.fishes
  | 4 => self.meats
  | _ => 0

/-- C10: the constructor's rule list is the caller's custom rules followed
by exactly the 20 standard rules — one per ordered pair of distinct kind
indices, self-pairs skipped — each giving 3 of the first kind and receiving
1 of the second. -/
theorem new_trades_custom_then_standard (c : Candies) (m : Nat)
    (ct : List Trade) :
    (CandyWorks.new c m ct).trades = ct ++ standardTradeList ∧
    standardTradeList.length = 20 ∧
    (∀ t, t ∈ standardTradeList ↔
      ∃ i j, i < 5 ∧ j < 5 ∧ i ≠ j ∧ t = Trade.standard_trade i j) ∧
    (∀ i, i < 5 → ∀ j, j < 5 → ∀ k, k < 5 →
      (Trade.standard_trade i j).give.kindCount k = (if k = i then 3 else 0) ∧
      (Trade.standard_trade i j).receive.kindCount k =
        (if k = j then 1 else 0)) ∧
    (∀ i, i < 5 → ∀ j, j < 5 → ∀ i2, i2 < 5 → ∀ j2, j2 < 5 →
      Trade.standard_trade i j = Trade.standard_trade i2 j2 →
      i = i2 ∧ j = j2) := by
  have h5 : ∀ i ∈ List.range 5, ∀ j ∈ List.range 5, ∀ i2 ∈ List.range 5,
      ∀ j2 ∈ List.range 5,
      Trade.standard_trade i j = Trade.standard_trade i2 j2 →
      i = i2 ∧ j = j2 := by decide
  refine ⟨rfl, by decide, ?_, by decide, ?_⟩
  case refine_2 =>
    intro i hi j hj i2 hi2 j2 hj2
    exact h5 i (List.mem_range.mpr hi) j (List.mem_range.mpr hj)
      i2 (List.mem_range.mpr hi2) j2 (List.mem_range.mpr hj2)
  intro t
  simp only [standardTradeList, List.mem_flatMap, List.mem_map,
    List.mem_filter, List.mem_range, bne_iff_ne]
  constructor
  · rintro ⟨i, hi, j, ⟨hj, hne⟩, rfl⟩
    exact ⟨i, j, hi, hj, Ne.symm hne, rfl⟩
  · rintro ⟨i, j, hi, hj, hne, rfl⟩
    exact ⟨i, hi, j, ⟨hj, Ne.symm hne⟩, rfl⟩

/-! ## Witnesses -/

/-- Witness for the amended C1 theorem at `chainScenario`, table index 4. -/
theorem explore_chain_reaches_in_chain_length_witness :
    (chainScenario.explore 10).combinations.get? 4 =
      some (⟨0, 0, 0, 0, 1⟩, some (3, ⟨⟨0, 0, 0, 1, 0⟩, ⟨0, 0, 0, 0, 1⟩⟩)) ∧
    ReachesIn chainScenario.trades (chainScenario.max_candies : Int)
      chainScenario.candies
      (routeWalk (chainScenario.explore 10).combinations
        (chainScenario.explore 10).combinations.length
        (some (3, ⟨⟨0, 0, 0, 1, 0⟩, ⟨0, 0, 0, 0, 1⟩⟩))).length
      ⟨0, 0, 0, 0, 1⟩ :=
  ⟨by decide, explore_chain_reaches_in_chain_length chainScenario 10 4
    (⟨0, 0, 0, 0, 1⟩, some (3, ⟨⟨0, 0, 0, 1, 0⟩, ⟨0, 0, 0, 0, 1⟩⟩))
    (by decide)⟩

/-- Witness for the C2 theorem: replaying the one-rule chain of the worm
entry of the explored three-egg scenario reproduces its basket. -/
theorem explore_replay_consistent_witness :
    (threeEggs.explore 10).combinations.get? 1 =
      some (⟨0, 1, 0, 0, 0⟩, some (0, ⟨⟨3, 0, 0, 0, 0⟩, ⟨0, 1, 0, 0, 0⟩⟩)) ∧
    applyTrades threeEggs.candies
      ((routeWalk (threeEggs.explore 10).combinations
        (threeEggs.explore 10).combinations.length
        (some (0, ⟨⟨3, 0, 0, 0, 0⟩, ⟨0, 1, 0, 0, 0⟩⟩))).reverse) =
      some ⟨0, 1, 0, 0, 0⟩ :=
  ⟨by decide, (explore_replay_consistent threeEggs 10).1 1
    (⟨0, 1, 0, 0, 0⟩, some (0, ⟨⟨3, 0, 0, 0, 0⟩, ⟨0, 1, 0, 0, 0⟩⟩))
    (by decide)⟩

/-- Witness for the C3 theorem on the explored three-egg scenario with
target one worm. -/
theorem find_optimal_route_selects_first_max_total_witness :
    (threeEggs.explore 10).candies.contains ⟨0, 1, 0, 0, 0⟩ = false ∧
    (∃ e0 ∈ (threeEggs.explore 10).combinations,
      e0.1.contains ⟨0, 1, 0, 0, 0⟩ = true) ∧
    ∃ i e, (threeEggs.explore 10).combinations.get? i = some e ∧
      e.1.contains ⟨0, 1, 0, 0, 0⟩ = true ∧
      (∀ e' ∈ (threeEggs.explore 10).combinations,
        e'.1.contains ⟨0, 1, 0, 0, 0⟩ = true → e'.1.total ≤ e.1.total) ∧
      (∀ j e', j < i → (threeEggs.explore 10).combinations.get? j = some e' →
        e'.1.contains ⟨0, 1, 0, 0, 0⟩ = true → e'.1.total < e.1.total) ∧
      (threeEggs.explore 10).find_optimal_route ⟨0, 1, 0, 0, 0⟩ =
        some ((routeWalk (threeEggs.explore 10).combinations
          (threeEggs.explore 10).combinations.length e.2).reverse) :=
  ⟨by decide,
    ⟨(⟨0, 1, 0, 0, 0⟩, some (0, ⟨⟨3, 0, 0, 0, 0⟩, ⟨0, 1, 0, 0, 0⟩⟩)),
      by decide, by decide⟩,
    find_optimal_route_selects_first_max_total (threeEggs.explore 10)
      ⟨0, 1, 0, 0, 0⟩ (by decide)
      ⟨(⟨0, 1, 0, 0, 0⟩, some (0, ⟨⟨3, 0, 0, 0, 0⟩, ⟨0, 1, 0, 0, 0⟩⟩)),
        by decide, by decide⟩⟩

/-- Witness for the amended C4 theorem on the explored three-egg scenario:
the root chain length evaluates to 1 and a direct child's to 2. -/
theorem len_from_combination_counts_entries_witness :
    (threeEggs.explore 10).combinations.get? 0 =
      some (⟨3, 0, 0, 0, 0⟩, Option.none) ∧
    (threeEggs.explore 10).len_from_combination 0 = 1 ∧
    (threeEggs.explore 10).combinations.get? 1 =
      some (⟨0, 1, 0, 0, 0⟩, some (0, ⟨⟨3, 0, 0, 0, 0⟩, ⟨0, 1, 0, 0, 0⟩⟩)) ∧
    (threeEggs.explore 10).len_from_combination 1 = 2 := by
  have h := len_from_combination_counts_entries (threeEggs.explore 10)
    ⟨3, 0, 0, 0, 0⟩ (by decide)
  exact ⟨by decide, h.1, by decide,
    h.2 1 ⟨0, 1, 0, 0, 0⟩ ⟨⟨3, 0, 0, 0, 0⟩, ⟨0, 1, 0, 0, 0⟩⟩ (by decide)⟩

/-- Witness for the C6 theorem: trading three eggs for a worm from a basket
of three eggs has no negative field and returns the adjusted basket. -/
theorem trade_rejected_iff_negative_field_witness :
    ¬(((3 : Int) + 0 - 3 < 0) ∨ ((0 : Int) + 0 - 0 < 0) ∨
      ((0 : Int) + 0 - 0 < 0) ∨ ((0 : Int) + 1 - 0 < 0) ∨
      ((0 : Int) + 0 - 0 < 0)) ∧
    Candies.trade ⟨3, 0, 0, 0, 0⟩ ⟨⟨3, 0, 0, 0, 0⟩, ⟨0, 1, 0, 0, 0⟩⟩ =
      some ⟨3 + 0 - 3, 0 + 1 - 0, 0 + 0 - 0, 0 + 0 - 0, 0 + 0 - 0⟩ :=
  ⟨by decide,
    (trade_rejected_iff_negative_field ⟨3, 0, 0, 0, 0⟩
      ⟨⟨3, 0, 0, 0, 0⟩, ⟨0, 1, 0, 0, 0⟩⟩).2 (by decide)⟩

/-- Witness for the C7 theorem: entries 0 and 1 of the explored three-egg
scenario differ in a field. -/
theorem explore_baskets_pairwise_distinct_witness :
    (threeEggs.explore 10).combinations.get? 0 =
      some (⟨3, 0, 0, 0, 0⟩, Option.none) ∧
    (threeEggs.explore 10).combinations.get? 1 =
      some (⟨0, 1, 0, 0, 0⟩, some (0, ⟨⟨3, 0, 0, 0, 0⟩, ⟨0, 1, 0, 0, 0⟩⟩)) ∧
    (0 : Nat) ≠ 1 ∧
    ((3 : Int) ≠ 0 ∨ (0 : Int) ≠ 1 ∨ (0 : Int) ≠ 0 ∨ (0 : Int) ≠ 0 ∨
      (0 : Int) ≠ 0) :=
  ⟨by decide, by decide, by decide,
    explore_baskets_pairwise_distinct threeEggs 10 0 1
      (⟨3, 0, 0, 0, 0⟩, Option.none)
      (⟨0, 1, 0, 0, 0⟩, some (0, ⟨⟨3, 0, 0, 0, 0⟩, ⟨0, 1, 0, 0, 0⟩⟩))
      (by decide) (by decide) (by decide)⟩

/-- Witness for the C8 theorem on the root-only two-egg scenario: a
contained target yields the empty route, an uncovered one is unreachable. -/
theorem find_optimal_route_empty_or_unreachable_witness :
    ((twoEggs.explore 10).candies.contains ⟨1, 0, 0, 0, 0⟩ = true ∧
     (twoEggs.explore 10).find_optimal_route ⟨1, 0, 0, 0, 0⟩ = some []) ∧
    ((twoEggs.explore 10).candies.contains ⟨0, 1, 0, 0, 0⟩ = false ∧
     (twoEggs.explore 10).find_optimal_route ⟨0, 1, 0, 0, 0⟩ = Option.none) :=
  ⟨⟨by decide,
    (find_optimal_route_empty_or_unreachable (twoEggs.explore 10)
      ⟨1, 0, 0, 0, 0⟩).1 (by decide)⟩,
   ⟨by decide,
    (find_optimal_route_empty_or_unreachable (twoEggs.explore 10)
      ⟨0, 1, 0, 0, 0⟩).2 (by decide) (by decide)⟩⟩

/-- Witness for the C9 theorem on the six-egg scenario whose root total 6
exceeds the cap 5. -/
theorem explore_root_uncapped_nonroot_capped_witness :
    Candies.total ⟨6, 0, 0, 0, 0⟩ > ((5 : Nat) : Int) ∧
    (sixEggs.explore 30).combinations.get? 0 =
      some (⟨6, 0, 0, 0, 0⟩, Option.none) ∧
    (sixEggs.explore 30).combinations.get? 1 =
      some (⟨3, 1, 0, 0, 0⟩, some (0, ⟨⟨3, 0, 0, 0, 0⟩, ⟨0, 1, 0, 0, 0⟩⟩)) ∧
    (∃ p t, (some (0, ⟨⟨3, 0, 0, 0, 0⟩, ⟨0, 1, 0, 0, 0⟩⟩) :
      Option (Nat × Trade)) = some (p, t)) ∧
    Candies.total ⟨3, 1, 0, 0, 0⟩ ≤ ((5 : Nat) : Int) := by
  have h := explore_root_uncapped_nonroot_capped sixEggs 30
  have h2 := h.2 1 (⟨3, 1, 0, 0, 0⟩, some (0, ⟨⟨3, 0, 0, 0, 0⟩, ⟨0, 1, 0, 0, 0⟩⟩))
    (by decide) (by decide)
  exact ⟨by decide, h.1, by decide, h2.1, h2.2⟩

/-- Witness for the C10 theorem at a concrete constructor call, exercising
membership, the give/receive counts and pair injectivity facts. -/
theorem new_trades_custom_then_standard_witness :
    (CandyWorks.new ⟨1, 0, 0, 0, 0⟩ 5 []).trades = [] ++ standardTradeList ∧
    standardTradeList.length = 20 ∧
    Trade.standard_trade 0 1 ∈ standardTradeList ∧
    (Trade.standard_trade 0 1).give.kindCount 0 = 3 ∧
    (Trade.standard_trade 0 1).receive.kindCount 1 = 1 := by
  have h := new_trades_custom_then_standard ⟨1, 0, 0, 0, 0⟩ 5 []
  refine ⟨h.1, h.2.1,
    (h.2.2.1 (Trade.standard_trade 0 1)).mpr
      ⟨0, 1, by decide, by decide, by decide, rfl⟩, ?_, ?_⟩
  · have hk := (h.2.2.2.1 0 (by decide) 1 (by decide) 0 (by decide)).1
    simpa using hk
  · have hk := (h.2.2.2.1 0 (by decide) 1 (by decide) 1 (by decide)).2
    simpa using hk
